import Mathlib

/-!
Verification development for the notes-processing service (`src/notes/main.py`).

Strings are modelled as `List Char`.  The Python `re` patterns used by the
extractors all have the shape `\b(?:alt1|alt2|...)\b`, where each alternative
is (after expanding the optional pieces such as `[- ]?` and `s?` in greedy
priority order) a literal word.  Such a pattern is modelled by the ordered
list of its literal expansions; matching tries the expansions in order at
each position, exactly as Python's backtracking alternation does, and
`\b` is the usual word-boundary test.  Scanning is left-to-right and
non-overlapping, as `re.findall` / `re.finditer` do.
-/

abbrev Str := List Char

def chars (s : String) : Str := s.toList

/-- Apostrophe character (used by patterns such as the contraction words). -/
def apos : Char := Char.ofNat 39

/-- Python `\w` for the ASCII texts handled here: letters, digits, underscore. -/
def isWordChar (c : Char) : Bool := c.isAlphanum || c == '_'

/-- Python whitespace (as used by `str.strip` / `str.split`). -/
def isSpaceChar (c : Char) : Bool :=
  c == ' ' || c == '\t' || c == '\n' || c == '\r' || c == Char.ofNat 11 || c == Char.ofNat 12

/-- ASCII lower-casing, as `str.lower` does on the ASCII texts handled here. -/
def lowerChar (c : Char) : Char :=
  if 'A' ≤ c && c ≤ 'Z' then Char.ofNat (c.toNat + 32) else c

def lowerStr (s : Str) : Str := s.map lowerChar

/-- `content.strip()` is empty, i.e. the string is all whitespace. -/
def stripEmpty (s : Str) : Bool := s.all isSpaceChar

/-- Python `str.strip()`. -/
def stripStr (s : Str) : Str :=
  ((s.dropWhile isSpaceChar).reverse.dropWhile isSpaceChar).reverse

/-- Python `content.split('.')` (keeps empty pieces). -/
def splitOnDot : Str → List Str
  | [] => [[]]
  | c :: rest =>
    if c = '.' then [] :: splitOnDot rest
    else
      match splitOnDot rest with
      | [] => [[c]]
      | s :: ss => (c :: s) :: ss

/-- Number of occurrences of a character (Python `content.count(c)`). -/
def countChar (c : Char) (s : Str) : Nat := (s.filter (fun x => x == c)).length

/-- Python substring test `needle in hay`. -/
def containsSub (hay needle : Str) : Bool :=
  (List.range (hay.length + 1)).any (fun i => needle.isPrefixOf (hay.drop i))

/-- Word-count helper: `inw` records whether we are inside a word run. -/
def wcGo : Bool → Str → Nat
  | _, [] => 0
  | inw, c :: rest =>
    if isSpaceChar c then wcGo false rest
    else (if inw then 0 else 1) + wcGo true rest

/-- `len(content.split())`: number of maximal non-whitespace runs. -/
def wordCount (s : Str) : Nat := wcGo false s

/-! ## Word-boundary regex engine -/

/-- Is an optional character a word character (string edges count as non-word)? -/
def wordOpt : Option Char → Bool
  | none => false
  | some c => isWordChar c

/-- Try to match one of the expansions `A` (in priority order) at the head of
`s`, where `prev` is the character just before `s`.  Both `\b` tests of a
pattern `\b(?:...)\b` are checked.  Returns the matched expansion. -/
def matchAt (A : List Str) (prev : Option Char) (s : Str) : Option Str :=
  if wordOpt prev != wordOpt s.head? then
    A.find? (fun e =>
      e.isPrefixOf s && (wordOpt (s.get? e.length) != wordOpt e.getLast?))
  else none

/-- Non-overlapping left-to-right scan, fuelled for structural recursion
(`fuel ≥ s.length` makes it total).  Returns `(position, length)` pairs. -/
def scanGo (A : List Str) : Nat → Option Char → Nat → Str → List (Nat × Nat)
  | 0, _, _, _ => []
  | _ + 1, _, _, [] => []
  | fuel + 1, prev, pos, c :: rest =>
    match matchAt A prev (c :: rest) with
    | some e =>
      (pos, e.length) ::
        scanGo A fuel e.getLast? (pos + e.length) (List.drop (e.length - 1) rest)
    | none => scanGo A fuel (some c) (pos + 1) rest

/-- All non-overlapping matches of the pattern with expansions `A` in `s`
(as position/length pairs), like `re.finditer`. -/
def reMatches (A : List Str) (s : Str) : List (Nat × Nat) :=
  scanGo A s.length none 0 s

/-- `len(re.findall(pattern, s))`. -/
def countPat (A : List Str) (s : Str) : Nat := (reMatches A s).length

/-- `re.search(pattern, s) is not None` (for the `\b(?:...)\b` patterns). -/
def hasMatch (A : List Str) (s : Str) : Bool := 0 < countPat A s

/-- The raw matched slices of a case-insensitive scan over `content`:
the scan runs over the lowered content, slices are cut from the raw one. -/
def ciSlices (A : List Str) (content : Str) : List Str :=
  (reMatches A (lowerStr content)).map (fun pl => (content.drop pl.1).take pl.2)

/-! ## Data model -/

/-- One transcript segment, as read from the transcript store.  Absent keys
(`dict.get` returning `None`) are modelled by `Option`. -/
structure Transcript where
  content : Str
  speaker_id : Option Str
  timestamp : Option Str
deriving DecidableEq, Repr

structure ImportantNote where
  content : Str
  speaker_id : Option Str
  timestamp : Option Str
  importance : Nat
deriving DecidableEq, Repr

structure Decision where
  title : Str
  description : Str
  timestamp : Option Str
  decided_by_speaker_id : Option Str
deriving DecidableEq, Repr

structure ActionItem where
  title : Str
  description : Str
  assigned_to_speaker_id : Option Str
  assigned_to_name : Option Str
  due_date : Option Str
  status : Str
  priority : Str
deriving DecidableEq, Repr

/-! ## Pattern tables

Each Python pattern `\b(?:...)\b` is listed as its ordered expansions. -/

/-- The eight `important_patterns` of `extract_important_notes`. -/
def importantCats : List (List Str) :=
  [ [chars "important", chars "crucial", chars "critical", chars "key",
     chars "essential", chars "vital", chars "significant"],
    [chars "remember", chars "note", chars "highlight", chars "emphasize", chars "stress"],
    [chars "action", chars "todo", chars "task",
     chars "follow-up", chars "follow up", chars "followup",
     chars "next steps", chars "next step"],
    [chars "decision", chars "decide", chars "agreed", chars "agree",
     chars "concluded", chars "conclude"],
    [chars "problem", chars "issue", chars "concern", chars "challenge", chars "risk"],
    [chars "solution", chars "resolve", chars "fix", chars "address"],
    [chars "deadline", chars "due", chars "schedule", chars "timeline"],
    [chars "budget", chars "cost", chars "price", chars "expense"] ]

/-- All keyword expansions of the eight categories. -/
def importantKeywords : List Str := importantCats.flatten

/-- The five `decision_patterns` of `extract_decisions`. -/
def decisionCats : List (List Str) :=
  [ [chars "we decided", chars "we agreed", chars "we concluded", chars "we determined"],
    [chars "decision", chars "agreed", chars "agree",
     chars "concluded", chars "conclude", chars "determined"],
    [chars "let" ++ [apos] ++ chars "s", chars "we" ++ [apos] ++ chars "ll",
     chars "we will", chars "we should"],
    [chars "approved", chars "rejected", chars "accepted", chars "denied"],
    [chars "final", chars "finalized", chars "settled", chars "resolved"] ]

/-- The five `action_patterns` of `extract_action_items`. -/
def actionCats : List (List Str) :=
  [ [chars "action", chars "todo", chars "task", chars "assignment"],
    [chars "follow-up", chars "follow up", chars "followup",
     chars "next steps", chars "next step"],
    [chars "will", chars "should", chars "need to", chars "have to", chars "must"],
    [chars "by", chars "before", chars "until", chars "deadline"],
    [chars "responsible", chars "assigned", chars "owner"] ]

/-! ## Important-note extraction (`extract_important_notes`) -/

/-- The score exactly as the loop of lines 173-194 computes it:
per category the match count is added only when there was a match, the
`?`/`!` counts only when the character occurs, and `+1` for long segments. -/
def incScore (content : Str) : Nat :=
  let c := lowerStr content
  let s0 := importantCats.foldl
    (fun acc A => if 0 < countPat A c then acc + countPat A c else acc) 0
  let s1 := if c.contains '?' then s0 + countChar '?' c else s0
  let s2 := if c.contains '!' then s1 + countChar '!' c else s1
  if 20 < wordCount c then s2 + 1 else s2

/-- The closed-form score stated by the spec: total match occurrences over the
eight categories, plus the `?` count, plus the `!` count, plus the length bonus. -/
def specScore (content : Str) : Nat :=
  let c := lowerStr content
  (importantCats.map (fun A => countPat A c)).sum
    + countChar '?' c + countChar '!' c
    + (if 20 < wordCount c then 1 else 0)

def mkImportantNote (t : Transcript) : ImportantNote :=
  { content := t.content
    speaker_id := t.speaker_id
    timestamp := t.timestamp
    importance := incScore t.content }

/-- The accumulation loop of `extract_important_notes`. -/
def importantLoop : List Transcript → List ImportantNote
  | [] => []
  | t :: rest =>
    if stripEmpty t.content then importantLoop rest
    else if 0 < incScore t.content then mkImportantNote t :: importantLoop rest
    else importantLoop rest

/-- Stable insert for a descending sort by `key` (later elements never pass
earlier ones with an equal key), as Python's stable `sort(reverse=True)`. -/
def insertDescBy {α β : Type} [LinearOrder β] (key : α → β) (x : α) : List α → List α
  | [] => [x]
  | y :: ys => if key y ≤ key x then x :: y :: ys else y :: insertDescBy key x ys

/-- Stable descending sort by `key`: Python `list.sort(key=key, reverse=True)`. -/
def sortDescBy {α β : Type} [LinearOrder β] (key : α → β) : List α → List α
  | [] => []
  | x :: xs => insertDescBy key x (sortDescBy key xs)

def extract_important_notes (transcripts : List Transcript) : List ImportantNote :=
  (sortDescBy ImportantNote.importance (importantLoop transcripts)).take 10

/-! ## Decision extraction (`extract_decisions`) -/

def mkDecision (sentence : Str) (t : Transcript) : Decision :=
  { title := (stripStr sentence).take 100
      ++ (if 100 < sentence.length then chars "..." else [])
    description := stripStr sentence
    timestamp := t.timestamp
    decided_by_speaker_id := t.speaker_id }

/-- The decisions one segment contributes before deduplication: for every
pattern and every match, the first period-delimited sentence whose lowered
text contains the raw matched text (the code's `match.group() in
sentence.lower()` check) yields one decision. -/
def segmentDecisions (t : Transcript) : List Decision :=
  if stripEmpty t.content then []
  else
    (decisionCats.map (fun A =>
      (ciSlices A t.content).filterMap (fun m =>
        ((splitOnDot t.content).find?
            (fun sentence => containsSub (lowerStr sentence) m)).map
          (fun sentence => mkDecision sentence t)))).flatten

/-- All decisions appended by the main loop, in encounter order. -/
def rawDecisions (transcripts : List Transcript) : List Decision :=
  (transcripts.map segmentDecisions).flatten

/-- The dedup loop with its `seen_titles` set. -/
def dedupAux (seen : List Str) : List Decision → List Decision
  | [] => []
  | d :: ds =>
    if d.title ∈ seen then dedupAux seen ds
    else d :: dedupAux (d.title :: seen) ds

def dedupFirst (l : List Decision) : List Decision := dedupAux [] l

/-- The spec's description of deduplication, written independently of the
code's `seen_titles` loop: keep the first decision, erase every later
decision with the same title, and continue with the rest.  Proved equal to
`dedupFirst` below; it makes "first occurrence wins, encounter order
preserved" explicit by construction. -/
def specDedup : List Decision → List Decision
  | [] => []
  | d :: ds =>
    d :: specDedup (ds.filter (fun x => !(decide (x.title = d.title))))
termination_by l => l.length
decreasing_by
  simp only [List.length_cons]
  exact Nat.lt_succ_of_le (List.length_filter_le _ _)

def extract_decisions (transcripts : List Transcript) : List Decision :=
  (dedupFirst (rawDecisions transcripts)).take 10

/-! ## Action-item extraction (`extract_action_items`) -/

/-- How many of the five action pattern categories match at least once. -/
def actionScore (content : Str) : Nat :=
  (actionCats.filter (fun A => hasMatch A (lowerStr content))).length

/-- `re.search(r"\b(\w+) kw\b", content, IGNORECASE)`, returning the raw
captured word.  A candidate position must start a maximal `\w+` run at a word
boundary; the run must be followed by a space, the (lower-cased) keyword
`kw`, and a trailing word boundary. -/
def searchNameBefore (kw : Str) (prev : Option Char) : Str → Option Str
  | [] => none
  | c :: rest =>
    if !wordOpt prev && isWordChar c then
      let run := (c :: rest).takeWhile isWordChar
      let after := (c :: rest).dropWhile isWordChar
      if lowerStr (after.take (kw.length + 1)) = ' ' :: kw
          && !wordOpt (after.get? (kw.length + 1)) then
        some run
      else searchNameBefore kw (some c) rest
    else searchNameBefore kw (some c) rest

/-- `re.search(r"\bkw (\w+)\b", content, IGNORECASE)` for a literal keyword
phrase `kw` followed by one captured word, returning the raw captured word. -/
def searchNameAfter (kw : Str) (prev : Option Char) : Str → Option Str
  | [] => none
  | c :: rest =>
    if (wordOpt prev != wordOpt (some c))
        && lowerStr ((c :: rest).take (kw.length + 1)) = kw ++ [' '] then
      let run := ((c :: rest).drop (kw.length + 1)).takeWhile isWordChar
      if run ≠ [] then some run
      else searchNameAfter kw (some c) rest
    else searchNameAfter kw (some c) rest

/-- `re.search(r"\bkw (\w+ \d+)\b", content, IGNORECASE)`: keyword, then a
word run, a space and a digit run (the captured raw `\w+ \d+` group). -/
def searchDue (kw : Str) (prev : Option Char) : Str → Option Str
  | [] => none
  | c :: rest =>
    if (wordOpt prev != wordOpt (some c))
        && lowerStr ((c :: rest).take (kw.length + 1)) = kw ++ [' '] then
      let r1 := (c :: rest).drop (kw.length + 1)
      let w := r1.takeWhile isWordChar
      let r2 := r1.drop (w.length + 1)
      let d := r2.takeWhile Char.isDigit
      if w ≠ [] && r1.get? w.length = some ' '
          && d ≠ [] && !wordOpt (r2.get? d.length) then
        some (w ++ ' ' :: d)
      else searchDue kw (some c) rest
    else searchDue kw (some c) rest

/-- The `assignee_patterns` loop: first successful pattern wins. -/
def findAssignee (content : Str) : Option Str :=
  match searchNameBefore (chars "will") none content with
  | some n => some n
  | none =>
    match searchNameBefore (chars "should") none content with
    | some n => some n
    | none =>
      match searchNameAfter (chars "assigned to") none content with
      | some n => some n
      | none => searchNameBefore (chars "is responsible") none content

/-- The `due_date_patterns` loop: first successful pattern wins. -/
def findDueDate (content : Str) : Option Str :=
  match searchDue (chars "by") none content with
  | some d => some d
  | none =>
    match searchDue (chars "before") none content with
    | some d => some d
    | none =>
      match searchDue (chars "until") none content with
      | some d => some d
      | none => searchDue (chars "deadline") none content

def mkActionItem (t : Transcript) : ActionItem :=
  let assigned := findAssignee t.content
  { title := t.content.take 100
      ++ (if 100 < t.content.length then chars "..." else [])
    description := t.content
    assigned_to_speaker_id := if assigned.isSome then none else t.speaker_id
    assigned_to_name := assigned
    due_date := findDueDate t.content
    status := chars "PENDING"
    priority := chars "MEDIUM" }

/-- The accumulation loop of `extract_action_items`. -/
def actionLoop : List Transcript → List ActionItem
  | [] => []
  | t :: rest =>
    if stripEmpty t.content then actionLoop rest
    else if 2 ≤ actionScore t.content then mkActionItem t :: actionLoop rest
    else actionLoop rest

def extract_action_items (transcripts : List Transcript) : List ActionItem :=
  (actionLoop transcripts).take 15

/-! ## Fallback summarizer (`generate_basic_summary`) -/

/-- `transcripts[:3]`. -/
def basicFirst (transcripts : List Transcript) : List Transcript :=
  transcripts.take 3

/-- `transcripts[-3:] if len(transcripts) > 3 else []`. -/
def basicLast (transcripts : List Transcript) : List Transcript :=
  if 3 < transcripts.length then transcripts.drop (transcripts.length - 3) else []

/-- `s.get('content','')[:50] + "..."`. -/
def preview (s : Str) : Str := s.take 50 ++ chars "..."

/-- `" ".join(pieces)`. -/
def joinSpace (pieces : List Str) : Str := (pieces.intersperse [' ']).flatten

def natStr (n : Nat) : Str := (Nat.repr n).toList

def generate_basic_summary (transcripts : List Transcript) (meeting_title : Str) : Str :=
  if transcripts.isEmpty then
    chars "Meeting '" ++ meeting_title
      ++ chars "' was held but no transcript content is available."
  else
    let speakers :=
      ((transcripts.filterMap Transcript.speaker_id).filter (fun s => s ≠ [])).dedup
    let first_segments := basicFirst transcripts
    let last_segments := basicLast transcripts
    let base := chars "Meeting '" ++ meeting_title ++ chars "' included "
      ++ natStr speakers.length ++ chars " participants with "
      ++ natStr transcripts.length ++ chars " discussion segments. "
    let withFirst :=
      if first_segments.isEmpty then base
      else base ++ chars "The meeting began with discussions about: "
        ++ joinSpace ((first_segments.take 2).map (fun s => preview s.content))
    if last_segments.isEmpty then withFirst
    else withFirst ++ chars " The meeting concluded with: "
      ++ joinSpace ((last_segments.take 2).map (fun s => preview s.content))

/-! ## Theme clustering (`extract_themes_from_transcripts`)

The sentence-transformer encoder and the KMeans fit are external numeric
capabilities; they are passed in as function parameters (`enc`, `clu`).
Everything from the cluster-membership comprehensions onward (lines
120-146) is modelled directly, over real-valued embedding vectors. -/

structure Theme where
  title : Str
  description : Str
  confidence : ℝ
  sample_texts : List Str

/-- Dot product of two embedding vectors (trailing entries of the longer
vector are ignored, as for equal-length vectors nothing is ignored). -/
def dotL (u v : List ℝ) : List ℝ := List.zipWith (fun a b => a * b) u v

def dotSum (u v : List ℝ) : ℝ := (dotL u v).sum

noncomputable def norm2 (u : List ℝ) : ℝ := Real.sqrt (dotSum u u)

/-- sklearn `cosine_similarity` for two vectors: rows are normalised, a
zero-norm row is left as is (so its similarity to anything is `0`). -/
noncomputable def cosSim (u v : List ℝ) : ℝ :=
  if norm2 u = 0 ∨ norm2 v = 0 then 0 else dotSum u v / (norm2 u * norm2 v)

/-- `np.mean(vectors, axis=0)`: coordinate-wise mean (dimension taken from
the first vector). -/
noncomputable def vmean (vs : List (List ℝ)) : List ℝ :=
  match vs with
  | [] => []
  | v :: _ =>
    (List.range v.length).map
      (fun j => ((vs.map (fun w => w.getD j 0)).sum) / (vs.length : ℝ))

/-- `np.mean(l)`. -/
noncomputable def listMean (l : List ℝ) : ℝ := l.sum / (l.length : ℝ)

/-- `np.argmax`: index of the first maximal entry. -/
noncomputable def idxOfMax (l : List ℝ) : Nat :=
  (l.enum.foldl (fun best p => if best.2 < p.2 then p else best) (0, l.headD 0)).1

/-- Line 135: first period-delimited sentence of the representative text,
truncated to 100 characters, with `"..."` appended when the whole
representative text is longer than 100 characters. -/
def themeTitle (rep : Str) : Str :=
  ((splitOnDot rep).headD []).take 100 ++ (if 100 < rep.length then chars "..." else [])

/-- The per-cluster loop of lines 120-142 followed by the confidence sort. -/
noncomputable def buildThemes (texts : List Str) (embeddings : List (List ℝ))
    (labels : List Nat) (n_clusters : Nat) : List Theme :=
  sortDescBy Theme.confidence
    ((List.range n_clusters).filterMap (fun cid =>
      let idxT := (List.range texts.length).filter (fun i => labels.get? i = some cid)
      let cluster_texts := idxT.filterMap (fun i => texts.get? i)
      if cluster_texts.isEmpty then none
      else
        let idxE := (List.range embeddings.length).filter (fun i => labels.get? i = some cid)
        let cluster_embeddings := idxE.filterMap (fun i => embeddings.get? i)
        let centroid := vmean cluster_embeddings
        let sims := cluster_embeddings.map (fun emb => cosSim centroid emb)
        let rep := cluster_texts.getD (idxOfMax sims) []
        some
          { title := themeTitle rep
            description := chars "Discussion cluster with "
              ++ natStr cluster_texts.length ++ chars " related segments"
            confidence := listMean sims
            sample_texts := cluster_texts.take 3 }))

noncomputable def extract_themes_from_transcripts
    (enc : List Str → List (List ℝ)) (clu : List (List ℝ) → Nat → List Nat)
    (transcripts : List Transcript) (num_themes : Nat) : List Theme :=
  if transcripts.length < 2 then []
  else
    let texts := (transcripts.map Transcript.content).filter (fun c => !stripEmpty c)
    if texts.length < 2 then []
    else
      let n_clusters := min num_themes texts.length
      if n_clusters < 2 then []
      else
        let embeddings := enc texts
        buildThemes texts embeddings (clu embeddings n_clusters) n_clusters

/-! ## Pipeline orchestrator (`process_meeting_notes`)

The Redis round trips are modelled by the data they deliver: `store` is the
sequence of `get` results for the keys in the meeting's transcript list
(`None` entries are skipped by the code), and `redisFails` says whether one
of the reads raises (the `except` path, which returns `None` having written
nothing).  The only write of a run is the final `setex`; writes performed
are returned alongside the result. -/

structure NotesResult where
  meeting_id : Str
  summary : Str
  themes : List Theme
  important_notes : List ImportantNote
  decisions : List Decision
  action_items : List ActionItem
  processed_at : Str
  transcript_count : Nat

structure CacheWrite where
  key : Str
  ttl : Nat
  value : NotesResult

noncomputable def process_meeting_notes (mid : Str) (store : List (Option Transcript))
    (redisFails : Bool) (enc : List Str → List (List ℝ))
    (clu : List (List ℝ) → Nat → List Nat) (now : Str) :
    Option NotesResult × List CacheWrite :=
  if redisFails then (none, [])
  else
    let transcripts := store.filterMap (fun x => x)
    if transcripts.isEmpty then (none, [])
    else
      let themes := extract_themes_from_transcripts enc clu transcripts 5
      let important_notes := extract_important_notes transcripts
      let decisions := extract_decisions transcripts
      let action_items := extract_action_items transcripts
      let meeting_title := chars "Meeting " ++ mid
      let summary := generate_basic_summary transcripts meeting_title
      let artifact : NotesResult :=
        { meeting_id := mid
          summary := summary
          themes := themes
          important_notes := important_notes
          decisions := decisions
          action_items := action_items
          processed_at := now
          transcript_count := transcripts.length }
      (some artifact,
        [{ key := chars "processed_notes:" ++ mid
           ttl := 86400
           value := artifact }])

/-! ## Auxiliary predicate for the monotonicity analysis -/

/-- No expansion of `A` can straddle into the suffix `t`: no split of an
expansion into two non-empty parts makes the right part a prefix of `t`.
When this holds, appending `t` to a string cannot create a match that starts
strictly inside the original string and runs into `t`. -/
def noStraddleB (A : List Str) (t : Str) : Bool :=
  A.all (fun e =>
    (List.range e.length).all (fun i =>
      i == 0 || !((e.drop i).isPrefixOf t)))

/-! ## Concrete inputs used by the example-level theorems -/

/-- First segment of the spec's end-to-end example. -/
def segLaunch : Transcript :=
  ⟨chars "We decided to launch next week.", some (chars "A"), none⟩

/-- Second segment of the spec's end-to-end example. -/
def segJohn : Transcript :=
  ⟨chars "John will follow up by March 5 on the budget issue.", some (chars "B"), none⟩

/-- Sixteen distinct segments, each matching two action pattern categories
(`task`, `deadline`). -/
def manyActionSegs : List Transcript :=
  (List.range 16).map (fun i =>
    ⟨chars "task " ++ natStr (i + 1) ++ chars " deadline", none, none⟩)

def mkSeg (s : String) : Transcript := ⟨chars s, none, none⟩

/-- Two segments with the same decision-bearing content. -/
def dupSegs : List Transcript :=
  [mkSeg "we agreed to ship.", mkSeg "we agreed to ship."]

/-- Four segments with distinct contents. -/
def fourSegs : List Transcript := [mkSeg "a", mkSeg "b", mkSeg "c", mkSeg "d"]

/-- Six segments with distinct contents. -/
def sixSegs : List Transcript :=
  [mkSeg "a", mkSeg "b", mkSeg "c", mkSeg "d", mkSeg "e", mkSeg "f"]

/-- Seven short segments for the theme counterexample. -/
def sevenSegs : List Transcript :=
  [mkSeg "a1", mkSeg "a2", mkSeg "a3", mkSeg "a4", mkSeg "a5", mkSeg "a6", mkSeg "a7"]

/-- One-dimensional embeddings for `sevenSegs`: a mixed-sign cluster
`{6, -1, -2}` (whose members are much closer to each other than to the rest)
and four well separated singletons.  This is a stable KMeans configuration
for `k = 5`. -/
noncomputable def encSeven : List Str → List (List ℝ) :=
  fun _ => [[6], [-1], [-2], [1000], [2000], [3000], [4000]]

/-- The corresponding cluster labels. -/
def cluSeven : List (List ℝ) → Nat → List Nat := fun _ _ => [0, 0, 0, 1, 2, 3, 4]

/-- A representative text whose first sentence is short but whose total
length exceeds 100 characters. -/
def okLong : Str := chars "Ok. " ++ List.replicate 100 'z'

/-- Two segments for the title counterexample. -/
def titleSegs : List Transcript := [⟨okLong, none, none⟩, mkSeg "bb"]

/-- A well-formed encoder: one (constant) embedding per text. -/
noncomputable def encTwo : List Str → List (List ℝ) := fun ts => ts.map (fun _ => [1])

def cluTwo : List (List ℝ) → Nat → List Nat := fun _ _ => [0, 1]

/-- The negative-confidence theme produced from `sevenSegs` (cluster 0 holds
the mixed-sign embeddings `[6], [-1], [-2]`, whose centroid is `[1]`). -/
noncomputable def themeNeg : Theme :=
  { title := chars "a1"
    description := chars "Discussion cluster with 3 related segments"
    confidence := -1 / 3
    sample_texts := [chars "a1", chars "a2", chars "a3"] }

/-- The theme produced from the long representative text `okLong`. -/
noncomputable def themeOk : Theme :=
  { title := chars "Ok..."
    description := chars "Discussion cluster with 1 related segments"
    confidence := 1
    sample_texts := [okLong] }

/-! ## Generic list lemmas -/

theorem find?_ext {α : Type} {p q : α → Bool} :
    ∀ {l : List α}, (∀ a ∈ l, p a = q a) → l.find? p = l.find? q := by
  intro l
  induction l with
  | nil => intro _; rfl
  | cons x xs ih =>
    intro h
    have hx := h x (List.mem_cons_self x xs)
    simp only [List.find?]
    rw [hx]
    cases q x with
    | true => rfl
    | false => exact ih (fun a ha => h a (List.mem_cons_of_mem x ha))

theorem insertDescBy_perm {α β : Type} [LinearOrder β] (key : α → β) (x : α) :
    ∀ l : List α, List.Perm (insertDescBy key x l) (x :: l) := by
  intro l
  induction l with
  | nil => simp [insertDescBy]
  | cons y ys ih =>
    by_cases h : key y ≤ key x
    · simp [insertDescBy, h]
    · simp only [insertDescBy, if_neg h]
      exact (List.Perm.cons y ih).trans (List.Perm.swap x y ys)

theorem sortDescBy_perm {α β : Type} [LinearOrder β] (key : α → β) :
    ∀ l : List α, List.Perm (sortDescBy key l) l := by
  intro l
  induction l with
  | nil => simp [sortDescBy]
  | cons x xs ih =>
    exact ((insertDescBy_perm key x (sortDescBy key xs)).trans (List.Perm.cons x ih))

theorem mem_sortDescBy {α β : Type} [LinearOrder β] {key : α → β} {a : α} {l : List α} :
    a ∈ sortDescBy key l ↔ a ∈ l :=
  (sortDescBy_perm key l).mem_iff

theorem pairwise_insertDescBy {α β : Type} [LinearOrder β] (key : α → β) (x : α)
    {l : List α} (h : l.Pairwise (fun a b => key b ≤ key a)) :
    (insertDescBy key x l).Pairwise (fun a b => key b ≤ key a) := by
  induction l with
  | nil => simp [insertDescBy]
  | cons y ys ih =>
    rcases List.pairwise_cons.mp h with ⟨hy, hys⟩
    by_cases hc : key y ≤ key x
    · simp only [insertDescBy, if_pos hc]
      refine List.pairwise_cons.mpr ⟨?_, h⟩
      intro z hz
      rcases List.mem_cons.mp hz with rfl | hz
      · exact hc
      · exact le_trans (hy z hz) hc
    · simp only [insertDescBy, if_neg hc]
      refine List.pairwise_cons.mpr ⟨?_, ih hys⟩
      intro z hz
      have hz' := (insertDescBy_perm key x ys).mem_iff.mp hz
      rcases List.mem_cons.mp hz' with rfl | hz'
      · exact le_of_lt (lt_of_not_ge hc)
      · exact hy z hz'

theorem pairwise_sortDescBy {α β : Type} [LinearOrder β] (key : α → β) :
    ∀ l : List α, (sortDescBy key l).Pairwise (fun a b => key b ≤ key a) := by
  intro l
  induction l with
  | nil => simp [sortDescBy]
  | cons x xs ih => exact pairwise_insertDescBy key x ih

/-! ## Deduplication lemmas -/

theorem dedupAux_sublist : ∀ (seen : List Str) (l : List Decision),
    List.Sublist (dedupAux seen l) l := by
  intro seen l
  induction l generalizing seen with
  | nil => simp [dedupAux]
  | cons d ds ih =>
    by_cases h : d.title ∈ seen
    · simp only [dedupAux, if_pos h]
      exact List.Sublist.cons d (ih seen)
    · simp only [dedupAux, if_neg h]
      exact List.Sublist.cons₂ d (ih (d.title :: seen))

theorem dedupAux_avoids : ∀ (seen : List Str) (l : List Decision) (d : Decision),
    d ∈ dedupAux seen l → d.title ∉ seen := by
  intro seen l
  induction l generalizing seen with
  | nil => intro d hd; simp [dedupAux] at hd
  | cons x xs ih =>
    intro d hd
    by_cases h : x.title ∈ seen
    · simp only [dedupAux, if_pos h] at hd
      exact ih seen d hd
    · simp only [dedupAux, if_neg h] at hd
      rcases List.mem_cons.mp hd with rfl | hd
      · exact h
      · intro hmem
        exact ih (x.title :: seen) d hd (List.mem_cons_of_mem _ hmem)

theorem dedupAux_titles_nodup : ∀ (seen : List Str) (l : List Decision),
    ((dedupAux seen l).map Decision.title).Nodup := by
  intro seen l
  induction l generalizing seen with
  | nil => simp [dedupAux]
  | cons x xs ih =>
    by_cases h : x.title ∈ seen
    · simp only [dedupAux, if_pos h]
      exact ih seen
    · simp only [dedupAux, if_neg h, List.map_cons]
      refine List.nodup_cons.mpr ⟨?_, ih (x.title :: seen)⟩
      intro hmem
      rcases List.mem_map.mp hmem with ⟨d, hd, ht⟩
      exact dedupAux_avoids _ _ d hd (ht ▸ List.mem_cons_self _ _)

theorem dedupAux_first_wins : ∀ (seen : List Str) (l : List Decision) (d : Decision),
    d ∈ dedupAux seen l →
    l.find? (fun x => decide (x.title = d.title)) = some d := by
  intro seen l
  induction l generalizing seen with
  | nil => intro d hd; simp [dedupAux] at hd
  | cons x xs ih =>
    intro d hd
    by_cases h : x.title ∈ seen
    · simp only [dedupAux, if_pos h] at hd
      have hne : x.title ≠ d.title := by
        intro he
        exact dedupAux_avoids seen xs d hd (he ▸ h)
      simp only [List.find?, decide_eq_true_eq]
      rw [decide_eq_false hne]
      exact ih seen d hd
    · simp only [dedupAux, if_neg h] at hd
      rcases List.mem_cons.mp hd with rfl | hd
      · simp [List.find?]
      · have hne : x.title ≠ d.title := by
          intro he
          exact dedupAux_avoids (x.title :: seen) xs d hd
            (he ▸ List.mem_cons_self _ _)
        simp only [List.find?]
        rw [decide_eq_false hne]
        exact ih (x.title :: seen) d hd

/-! ## Whitespace and scoring lemmas -/

theorem spaceNotWord {c : Char} (h : isSpaceChar c = true) : isWordChar c = false := by
  simp only [isSpaceChar, Bool.or_eq_true, beq_iff_eq] at h
  rcases h with ((((h | h) | h) | h) | h) | h <;> subst h <;> decide

theorem spaceLower {c : Char} (h : isSpaceChar c = true) : lowerChar c = c := by
  simp only [isSpaceChar, Bool.or_eq_true, beq_iff_eq] at h
  rcases h with ((((h | h) | h) | h) | h) | h <;> subst h <;> decide

theorem scanGo_all_nonword (A : List Str) :
    ∀ (fuel : Nat) (prev : Option Char) (pos : Nat) (s : Str),
      (∀ c ∈ s, isWordChar c = false) → wordOpt prev = false →
      scanGo A fuel prev pos s = [] := by
  intro fuel
  induction fuel with
  | zero => intro prev pos s _ _; rfl
  | succ n ih =>
    intro prev pos s hs hprev
    cases s with
    | nil => rfl
    | cons c rest =>
      have hc : isWordChar c = false := hs c (List.mem_cons_self c rest)
      have hcond : (wordOpt prev != wordOpt (c :: rest).head?) = false := by
        rw [List.head?_cons, hprev]
        simp [wordOpt, hc]
      have hb : matchAt A prev (c :: rest) = none := by
        simp only [matchAt, hcond, Bool.false_eq_true, if_false]
      simp only [scanGo, hb]
      exact ih (some c) (pos + 1) rest
        (fun x hx => hs x (List.mem_cons_of_mem c hx)) (by simp [wordOpt, hc])

theorem countPat_stripEmpty {content : Str} (h : stripEmpty content = true)
    (A : List Str) : countPat A (lowerStr content) = 0 := by
  have hall : ∀ c ∈ lowerStr content, isWordChar c = false := by
    intro c hc
    rcases List.mem_map.mp hc with ⟨x, hx, rfl⟩
    have hsp := List.all_eq_true.mp h x hx
    rw [spaceLower hsp]
    exact spaceNotWord hsp
  simp only [countPat, reMatches]
  rw [scanGo_all_nonword A _ none 0 _ hall rfl]
  rfl

theorem countChar_stripEmpty {content : Str} (h : stripEmpty content = true)
    {x : Char} (hx : isSpaceChar x = false) : countChar x (lowerStr content) = 0 := by
  simp only [countChar, List.length_eq_zero]
  rw [List.filter_eq_nil_iff]
  intro a ha
  rcases List.mem_map.mp ha with ⟨b, hb, rfl⟩
  have hsp := List.all_eq_true.mp h b hb
  rw [spaceLower hsp]
  simp only [beq_iff_eq]
  intro he
  rw [he] at hsp
  rw [hsp] at hx
  exact Bool.true_eq_false.mp hx

theorem wcGo_all_space : ∀ (s : Str), (∀ c ∈ s, isSpaceChar c = true) →
    ∀ b, wcGo b s = 0 := by
  intro s
  induction s with
  | nil => intro _ b; rfl
  | cons c rest ih =>
    intro h b
    have hc := h c (List.mem_cons_self c rest)
    simp only [wcGo, hc, if_pos]
    exact ih (fun x hx => h x (List.mem_cons_of_mem c hx)) false

theorem wordCount_stripEmpty {content : Str} (h : stripEmpty content = true) :
    wordCount (lowerStr content) = 0 := by
  refine wcGo_all_space _ ?_ false
  intro c hc
  rcases List.mem_map.mp hc with ⟨x, hx, rfl⟩
  have hsp := List.all_eq_true.mp h x hx
  rw [spaceLower hsp]
  exact hsp

theorem specScore_stripEmpty {content : Str} (h : stripEmpty content = true) :
    specScore content = 0 := by
  simp only [specScore]
  rw [wordCount_stripEmpty h,
    countChar_stripEmpty h (x := '?') (by decide),
    countChar_stripEmpty h (x := '!') (by decide)]
  have : (importantCats.map fun A => countPat A (lowerStr content)) =
      importantCats.map (fun _ => 0) := by
    apply List.map_congr_left
    intro A _
    exact countPat_stripEmpty h A
  rw [this]
  simp

theorem foldl_scoreAdd (c : Str) :
    ∀ (L : List (List Str)) (acc : Nat),
      L.foldl (fun acc A =>
        if 0 < countPat A c then acc + countPat A c else acc) acc
        = acc + (L.map (fun A => countPat A c)).sum := by
  intro L
  induction L with
  | nil => intro acc; simp
  | cons A L ih =>
    intro acc
    simp only [List.foldl_cons, List.map_cons, List.sum_cons]
    have hstep : (if 0 < countPat A c then acc + countPat A c else acc)
        = acc + countPat A c := by
      rcases Nat.eq_zero_or_pos (countPat A c) with h | h
      · simp [h]
      · simp [h]
    rw [hstep, ih]
    omega

theorem countChar_of_not_contains : ∀ {c : Str} {x : Char},
    c.contains x = false → countChar x c = 0 := by
  intro c x h
  induction c with
  | nil => rfl
  | cons a as ih =>
    rw [List.contains_cons, Bool.or_eq_false_iff] at h
    have hax : (a == x) = false :=
      beq_eq_false_iff_ne.mpr (fun he => by rw [he] at h; simp at h)
    simp only [countChar, List.filter_cons, hax, Bool.false_eq_true, if_false]
    exact ih h.2

theorem if_contains_add (lc : Str) (x : Char) (s : Nat) :
    (if lc.contains x then s + countChar x lc else s) = s + countChar x lc := by
  by_cases h : lc.contains x = true
  · rw [if_pos h]
  · have h0 : lc.contains x = false := by
      cases hb : lc.contains x
      · rfl
      · exact absurd hb h
    rw [if_neg h, countChar_of_not_contains h0]
    omega

/-- The incremental score of the code equals the closed-form score. -/
theorem incScore_eq_specScore (content : Str) :
    incScore content = specScore content := by
  simp only [incScore, specScore]
  rw [foldl_scoreAdd, if_contains_add, if_contains_add]
  split <;> omega

/-! ## Loop characterisations -/

theorem incScore_stripEmpty {content : Str} (h : stripEmpty content = true) :
    incScore content = 0 := by
  rw [incScore_eq_specScore]
  exact specScore_stripEmpty h

theorem actionScore_stripEmpty {content : Str} (h : stripEmpty content = true) :
    actionScore content = 0 := by
  simp only [actionScore, List.length_eq_zero]
  rw [List.filter_eq_nil_iff]
  intro A _
  simp [hasMatch, countPat_stripEmpty h A]

/-- The important-note loop keeps exactly the positively scored segments,
scoring them with the closed-form score. -/
theorem importantLoop_eq : ∀ ts : List Transcript,
    importantLoop ts =
      (ts.filter (fun t => 0 < specScore t.content)).map
        (fun t => { content := t.content, speaker_id := t.speaker_id,
                    timestamp := t.timestamp, importance := specScore t.content }) := by
  intro ts
  induction ts with
  | nil => rfl
  | cons t rest ih =>
    by_cases hse : stripEmpty t.content = true
    · have h1 : importantLoop (t :: rest) = importantLoop rest := by
        simp only [importantLoop, hse, if_pos]
      have hz : ¬ 0 < specScore t.content := by
        have := specScore_stripEmpty hse
        omega
      rw [h1, List.filter_cons, decide_eq_false hz, if_neg Bool.false_ne_true]
      exact ih
    · have hse' : stripEmpty t.content = false := by
        cases hb : stripEmpty t.content
        · rfl
        · exact absurd hb hse
      by_cases hsc : 0 < incScore t.content
      · have hsc' : 0 < specScore t.content := incScore_eq_specScore t.content ▸ hsc
        have h1 : importantLoop (t :: rest)
            = mkImportantNote t :: importantLoop rest := by
          simp only [importantLoop, hse', Bool.false_eq_true, if_false, hsc, if_pos]
        rw [h1, List.filter_cons, decide_eq_true hsc', if_pos rfl, List.map_cons, ih]
        refine List.cons_eq_cons.mpr ⟨?_, rfl⟩
        simp [mkImportantNote, incScore_eq_specScore]
      · have hsc' : ¬ 0 < specScore t.content := incScore_eq_specScore t.content ▸ hsc
        have h1 : importantLoop (t :: rest) = importantLoop rest := by
          simp only [importantLoop, hse', Bool.false_eq_true, if_false, hsc, if_neg]
        rw [h1, List.filter_cons, decide_eq_false hsc', if_neg Bool.false_ne_true]
        exact ih

/-- The action-item loop keeps exactly the segments matching at least two
pattern categories. -/
theorem actionLoop_eq : ∀ ts : List Transcript,
    actionLoop ts =
      (ts.filter (fun t => 2 ≤ actionScore t.content)).map mkActionItem := by
  intro ts
  induction ts with
  | nil => rfl
  | cons t rest ih =>
    by_cases hse : stripEmpty t.content = true
    · have h1 : actionLoop (t :: rest) = actionLoop rest := by
        simp only [actionLoop, hse, if_pos]
      have hlt : ¬ 2 ≤ actionScore t.content := by
        have := actionScore_stripEmpty hse
        omega
      rw [h1, List.filter_cons, decide_eq_false hlt, if_neg Bool.false_ne_true]
      exact ih
    · have hse' : stripEmpty t.content = false := by
        cases hb : stripEmpty t.content
        · rfl
        · exact absurd hb hse
      by_cases hsc : 2 ≤ actionScore t.content
      · have h1 : actionLoop (t :: rest) = mkActionItem t :: actionLoop rest := by
          simp only [actionLoop, hse', Bool.false_eq_true, if_false, hsc, if_pos]
        rw [h1, List.filter_cons, decide_eq_true hsc, if_pos rfl, List.map_cons, ih]
      · have h1 : actionLoop (t :: rest) = actionLoop rest := by
          simp only [actionLoop, hse', Bool.false_eq_true, if_false, hsc, if_neg]
        rw [h1, List.filter_cons, decide_eq_false hsc, if_neg Bool.false_ne_true]
        exact ih

/-! ## Scan stability under appending (for score monotonicity) -/

theorem noStraddle_elim {A : List Str} {t : Str} (hns : noStraddleB A t = true)
    {e : Str} (he : e ∈ A) {i : Nat} (hi : i < e.length) (hi0 : i ≠ 0) :
    (e.drop i).isPrefixOf t = false := by
  have h1 := List.all_eq_true.mp hns e he
  have h2 := List.all_eq_true.mp h1 i (List.mem_range.mpr hi)
  rcases Bool.or_eq_true_iff.mp h2 with h3 | h3
  · exact absurd (beq_iff_eq.mp h3) hi0
  · cases hb : (e.drop i).isPrefixOf t
    · rfl
    · rw [hb] at h3
      simp at h3

theorem matchAt_append {A : List Str} {t : Str} (hns : noStraddleB A t = true)
    (ht : wordOpt t.head? = false) :
    ∀ (prev : Option Char) (xs : Str), xs ≠ [] →
      matchAt A prev (xs ++ t) = matchAt A prev xs := by
  intro prev xs hxs
  unfold matchAt
  have hhead : (xs ++ t).head? = xs.head? := by
    cases xs with
    | nil => exact absurd rfl hxs
    | cons a l => rfl
  rw [hhead]
  by_cases hb : (wordOpt prev != wordOpt xs.head?) = true
  · rw [if_pos hb, if_pos hb]
    apply find?_ext
    intro e he
    by_cases hpre : e.isPrefixOf xs = true
    · have hpx : e <+: xs := List.isPrefixOf_iff_prefix.mp hpre
      have hpre2 : e.isPrefixOf (xs ++ t) = true :=
        List.isPrefixOf_iff_prefix.mpr (hpx.trans (List.prefix_append xs t))
      rw [hpre, hpre2]
      have hlen : e.length ≤ xs.length := hpx.length_le
      rcases Nat.lt_or_ge e.length xs.length with hlt | hge
      · rw [List.get?_append hlt]
      · have hEq : e.length = xs.length := Nat.le_antisymm hlen hge
        have h1 : (xs ++ t).get? e.length = t.get? 0 := by
          rw [hEq, List.get?_append_right (le_refl _)]
          simp
        have h2 : xs.get? e.length = none := by
          rw [hEq, List.get?_eq_none]
        have h3 : t.get? 0 = t.head? := by cases t <;> rfl
        rw [h1, h2, h3, ht]
        rfl
    · have hpre' : e.isPrefixOf xs = false := by
        cases hb2 : e.isPrefixOf xs
        · rfl
        · exact absurd hb2 hpre
      have hpre2 : e.isPrefixOf (xs ++ t) = false := by
        cases hb3 : e.isPrefixOf (xs ++ t)
        · rfl
        · exfalso
          have hpx : e <+: xs ++ t := List.isPrefixOf_iff_prefix.mp hb3
          have hlen : xs.length < e.length := by
            by_contra hle
            push_neg at hle
            apply hpre
            apply List.isPrefixOf_iff_prefix.mpr
            have he2 := List.prefix_iff_eq_take.mp hpx
            rw [List.take_append_eq_append_take, Nat.sub_eq_zero_of_le hle] at he2
            simp only [List.take_zero, List.append_nil] at he2
            rw [he2]
            exact List.take_prefix _ _
          have hdrop : (e.drop xs.length).isPrefixOf t = true := by
            have he2 := List.prefix_iff_eq_take.mp hpx
            rw [List.take_append_eq_append_take,
              List.take_of_length_le (Nat.le_of_lt hlen)] at he2
            apply List.isPrefixOf_iff_prefix.mpr
            rw [he2, List.drop_left]
            exact List.take_prefix _ _
          have hxs0 : xs.length ≠ 0 := by
            cases xs with
            | nil => exact absurd rfl hxs
            | cons a l => simp
          rw [noStraddle_elim hns he hlen hxs0] at hdrop
          exact Bool.false_ne_true hdrop
      rw [hpre', hpre2]
      simp
  · rw [if_neg hb, if_neg hb]

theorem scanGo_nil (A : List Str) (f : Nat) (prev : Option Char) (pos : Nat) :
    scanGo A f prev pos [] = [] := by
  cases f <;> rfl

theorem matchAt_isPrefixOf {A : List Str} {prev : Option Char} {s e : Str}
    (hm : matchAt A prev s = some e) : e.isPrefixOf s = true := by
  unfold matchAt at hm
  split at hm
  · have hp := List.find?_some hm
    exact (Bool.and_eq_true_iff.mp hp).1
  · exact absurd hm (by simp)

theorem scanGo_fuel (A : List Str) :
    ∀ (n : Nat) (s : Str), s.length ≤ n →
      ∀ (f1 f2 : Nat) (prev : Option Char) (pos : Nat),
        s.length ≤ f1 → s.length ≤ f2 →
        scanGo A f1 prev pos s = scanGo A f2 prev pos s := by
  intro n
  induction n with
  | zero =>
    intro s hs f1 f2 prev pos _ _
    have : s = [] := List.length_eq_zero.mp (Nat.le_zero.mp hs)
    subst this
    rw [scanGo_nil, scanGo_nil]
  | succ n ih =>
    intro s hs f1 f2 prev pos h1 h2
    cases s with
    | nil => rw [scanGo_nil, scanGo_nil]
    | cons c rest =>
      simp only [List.length_cons] at hs h1 h2
      cases f1 with
      | zero => omega
      | succ g1 =>
        cases f2 with
        | zero => omega
        | succ g2 =>
          cases hm : matchAt A prev (c :: rest) with
          | none =>
            simp only [scanGo, hm]
            exact ih rest (by omega) g1 g2 (some c) (pos + 1) (by omega) (by omega)
          | some e =>
            simp only [scanGo, hm]
            have hdlen : (List.drop (e.length - 1) rest).length ≤ rest.length := by
              rw [List.length_drop]
              omega
            rw [ih (List.drop (e.length - 1) rest) (by omega) g1 g2 e.getLast?
              (pos + e.length) (by omega) (by omega)]

theorem scanGo_append_le {A : List Str} {t : Str}
    (hns : noStraddleB A t = true) (ht : wordOpt t.head? = false) :
    ∀ (n : Nat) (xs : Str), xs.length ≤ n →
      ∀ (f g : Nat) (prev : Option Char) (pos : Nat),
        xs.length ≤ f → xs.length + t.length ≤ g →
        (scanGo A f prev pos xs).length ≤ (scanGo A g prev pos (xs ++ t)).length := by
  intro n
  induction n with
  | zero =>
    intro xs hxs f g prev pos _ _
    have : xs = [] := List.length_eq_zero.mp (Nat.le_zero.mp hxs)
    subst this
    rw [scanGo_nil]
    exact Nat.zero_le _
  | succ n ih =>
    intro xs hxs f g prev pos hf hg
    cases xs with
    | nil =>
      rw [scanGo_nil]
      exact Nat.zero_le _
    | cons c rest =>
      simp only [List.length_cons] at hxs hf hg
      cases f with
      | zero => omega
      | succ f' =>
        cases g with
        | zero => omega
        | succ g' =>
          have hcons : (c :: rest) ++ t = c :: (rest ++ t) := rfl
          have hma := matchAt_append hns ht prev (c :: rest) (by simp)
          rw [hcons] at hma
          cases hm : matchAt A prev (c :: rest) with
          | none =>
            have hm2 : matchAt A prev (c :: (rest ++ t)) = none := hma.trans hm
            rw [hcons]
            simp only [scanGo, hm, hm2]
            exact ih rest (by omega) f' g' (some c) (pos + 1) (by omega) (by omega)
          | some e =>
            have hm2 : matchAt A prev (c :: (rest ++ t)) = some e := hma.trans hm
            have hpre : e.length ≤ rest.length + 1 := by
              have := (List.isPrefixOf_iff_prefix.mp (matchAt_isPrefixOf hm)).length_le
              simpa using this
            have hdropapp : List.drop (e.length - 1) (rest ++ t)
                = List.drop (e.length - 1) rest ++ t := by
              rw [List.drop_append_eq_append_drop,
                show (e.length - 1) - rest.length = 0 from by omega, List.drop_zero]
            have hdlen : (List.drop (e.length - 1) rest).length ≤ rest.length := by
              rw [List.length_drop]
              omega
            rw [hcons]
            simp only [scanGo, hm, hm2, hdropapp, List.length_cons]
            exact Nat.succ_le_succ
              (ih (List.drop (e.length - 1) rest) (by omega) f' g' e.getLast?
                (pos + e.length) (by omega) (by omega))

/-- Appending a suffix that no expansion can straddle into never decreases
the number of matches. -/
theorem countPat_append_le {A : List Str} {t : Str}
    (hns : noStraddleB A t = true) (ht : wordOpt t.head? = false) (xs : Str) :
    countPat A xs ≤ countPat A (xs ++ t) := by
  simp only [countPat, reMatches]
  have h := scanGo_append_le hns ht xs.length xs (le_refl _) xs.length
    (xs ++ t).length none 0 (le_refl _) (by simp)
  exact h

/-! ## Word-count and character-count append lemmas -/

theorem wcGo_append_space (k : Str) :
    ∀ (a : Str) (b : Bool), wcGo b (a ++ ' ' :: k) = wcGo b a + wcGo false k := by
  intro a
  induction a with
  | nil =>
    intro b
    simp only [List.nil_append, wcGo, wordCount]
    rw [if_pos (by decide : isSpaceChar ' ' = true)]
    omega
  | cons c as ih =>
    intro b
    by_cases hc : isSpaceChar c = true
    · simp only [List.cons_append, wcGo, hc, if_pos, List.append_eq]
      exact ih false
    · have hc' : isSpaceChar c = false := by
        cases hb : isSpaceChar c
        · rfl
        · exact absurd hb hc
      simp only [List.cons_append, wcGo, hc', Bool.false_eq_true, if_false, List.append_eq]
      rw [ih true]
      omega

theorem wordCount_append_space (a k : Str) :
    wordCount (a ++ ' ' :: k) = wordCount a + wordCount k := by
  simp only [wordCount]
  exact wcGo_append_space k a false

theorem countChar_append (x : Char) (a b : Str) :
    countChar x (a ++ b) = countChar x a + countChar x b := by
  simp [countChar, List.filter_append]

/-- Appending a separate occurrence of any of the eight categories' keywords
never decreases the closed-form importance score. -/
theorem specScore_append_keyword (content kw : Str) (hkw : kw ∈ importantKeywords) :
    specScore content ≤ specScore (content ++ ' ' :: kw) := by
  have hfacts : ∀ w ∈ importantKeywords, lowerStr w = w ∧
      (importantCats.all (fun A => noStraddleB A (' ' :: w))) = true := by decide
  obtain ⟨hlowkw, hnsall⟩ := hfacts kw hkw
  have hlow : lowerStr (content ++ ' ' :: kw) = lowerStr content ++ ' ' :: kw := by
    simp only [lowerStr, List.map_append, List.map_cons]
    rw [show lowerChar ' ' = ' ' from by decide]
    have : List.map lowerChar kw = kw := hlowkw
    rw [this]
  simp only [specScore, hlow]
  have hsum : (importantCats.map (fun A => countPat A (lowerStr content))).sum ≤
      (importantCats.map (fun A => countPat A (lowerStr content ++ ' ' :: kw))).sum := by
    apply List.sum_le_sum
    intro A hA
    exact countPat_append_le (List.all_eq_true.mp hnsall A hA)
      (show wordOpt (' ' :: kw).head? = false from by rw [List.head?_cons]; decide)
      (lowerStr content)
  have hq : countChar '?' (lowerStr content) ≤
      countChar '?' (lowerStr content ++ ' ' :: kw) := by
    rw [countChar_append]
    omega
  have he : countChar '!' (lowerStr content) ≤
      countChar '!' (lowerStr content ++ ' ' :: kw) := by
    rw [countChar_append]
    omega
  have hw : wordCount (lowerStr content) ≤ wordCount (lowerStr content ++ ' ' :: kw) := by
    rw [wordCount_append_space]
    omega
  have hbonus : (if 20 < wordCount (lowerStr content) then 1 else 0) ≤
      (if 20 < wordCount (lowerStr content ++ ' ' :: kw) then 1 else 0) := by
    by_cases h20 : 20 < wordCount (lowerStr content)
    · rw [if_pos h20, if_pos (lt_of_lt_of_le h20 hw)]
    · rw [if_neg h20]
      omega
  omega

/-! ## Cosine-similarity bounds -/

theorem dotSum_eq_finset : ∀ (u v : List ℝ),
    dotSum u v = ∑ i in Finset.range (min u.length v.length),
      u.getD i 0 * v.getD i 0 := by
  intro u
  induction u with
  | nil => intro v; simp [dotSum, dotL]
  | cons x u' ih =>
    intro v
    cases v with
    | nil => simp [dotSum, dotL]
    | cons y v' =>
      have hstep : dotSum (x :: u') (y :: v') = x * y + dotSum u' v' := by
        simp [dotSum, dotL]
      rw [hstep, ih v']
      simp only [List.length_cons, Nat.succ_min_succ]
      rw [Finset.sum_range_succ']
      simp only [List.getD_cons_succ, List.getD_cons_zero]
      ring

theorem dotSum_self_nonneg (u : List ℝ) : 0 ≤ dotSum u u := by
  rw [dotSum_eq_finset]
  apply Finset.sum_nonneg
  intro i _
  exact mul_self_nonneg _

theorem norm2_nonneg (u : List ℝ) : 0 ≤ norm2 u := Real.sqrt_nonneg _

/-- Cauchy-Schwarz for the list dot product. -/
theorem abs_dotSum_le (u v : List ℝ) : |dotSum u v| ≤ norm2 u * norm2 v := by
  have hsq : dotSum u v ^ 2 ≤ dotSum u u * dotSum v v := by
    rw [dotSum_eq_finset u v]
    calc (∑ i in Finset.range (min u.length v.length), u.getD i 0 * v.getD i 0) ^ 2
        ≤ (∑ i in Finset.range (min u.length v.length), u.getD i 0 ^ 2) *
          (∑ i in Finset.range (min u.length v.length), v.getD i 0 ^ 2) :=
          Finset.sum_mul_sq_le_sq_mul_sq _ _ _
      _ ≤ dotSum u u * dotSum v v := by
          rw [dotSum_eq_finset u u, dotSum_eq_finset v v]
          simp only [← pow_two]
          apply mul_le_mul
          · apply Finset.sum_le_sum_of_subset_of_nonneg
            · exact Finset.range_subset.mpr (by omega)
            · intro i _ _
              exact sq_nonneg _
          · apply Finset.sum_le_sum_of_subset_of_nonneg
            · exact Finset.range_subset.mpr (by omega)
            · intro i _ _
              exact sq_nonneg _
          · exact Finset.sum_nonneg (fun i _ => sq_nonneg _)
          · exact Finset.sum_nonneg (fun i _ => sq_nonneg _)
  have habs : |dotSum u v| ≤ Real.sqrt (dotSum u u * dotSum v v) :=
    Real.abs_le_sqrt hsq
  rw [Real.sqrt_mul (dotSum_self_nonneg u)] at habs
  exact habs

theorem cosSim_bounds (u v : List ℝ) : -1 ≤ cosSim u v ∧ cosSim u v ≤ 1 := by
  unfold cosSim
  split
  · constructor <;> norm_num
  · rename_i hz
    push_neg at hz
    have hu : 0 < norm2 u := lt_of_le_of_ne (norm2_nonneg u) (Ne.symm hz.1)
    have hv : 0 < norm2 v := lt_of_le_of_ne (norm2_nonneg v) (Ne.symm hz.2)
    have hpos : 0 < norm2 u * norm2 v := mul_pos hu hv
    have habs : |dotSum u v / (norm2 u * norm2 v)| ≤ 1 := by
      rw [abs_div, abs_of_pos hpos]
      rw [div_le_one hpos]
      exact abs_dotSum_le u v
    exact ⟨neg_le_of_abs_le habs, le_of_abs_le habs⟩

theorem listMean_bounds {l : List ℝ} (h : ∀ x ∈ l, -1 ≤ x ∧ x ≤ 1) :
    -1 ≤ listMean l ∧ listMean l ≤ 1 := by
  cases l with
  | nil =>
    unfold listMean
    norm_num
  | cons a as =>
    have hlen : 0 < ((a :: as).length : ℝ) := by
      simp only [List.length_cons]
      positivity
    unfold listMean
    constructor
    · rw [le_div_iff hlen]
      have := List.card_nsmul_le_sum (a :: as) (-1) (fun x hx => (h x hx).1)
      rw [nsmul_eq_mul] at this
      calc (-1 : ℝ) * (a :: as).length = ((a :: as).length : ℝ) * (-1) := by ring
        _ ≤ (a :: as).sum := this
    · rw [div_le_one hlen]
      have := List.sum_le_card_nsmul (a :: as) 1 (fun x hx => (h x hx).2)
      rw [nsmul_eq_mul, mul_one] at this
      exact this

/-! ## Theme-list invariants -/

theorem buildThemes_mem_conf (texts : List Str) (embeddings : List (List ℝ))
    (labels : List Nat) (k : Nat) {th : Theme}
    (hth : th ∈ buildThemes texts embeddings labels k) :
    -1 ≤ th.confidence ∧ th.confidence ≤ 1 := by
  unfold buildThemes at hth
  rw [mem_sortDescBy] at hth
  rcases List.mem_filterMap.mp hth with ⟨cid, _, hf⟩
  simp only at hf
  split at hf
  · exact absurd hf (by simp)
  · rw [Option.some_inj] at hf
    subst hf
    apply listMean_bounds
    intro x hx
    rcases List.mem_map.mp hx with ⟨emb, _, rfl⟩
    exact cosSim_bounds _ emb

theorem buildThemes_sorted (texts : List Str) (embeddings : List (List ℝ))
    (labels : List Nat) (k : Nat) :
    (buildThemes texts embeddings labels k).Pairwise
      (fun a b => b.confidence ≤ a.confidence) := by
  unfold buildThemes
  exact pairwise_sortDescBy _ _

theorem foldl_argmax_lt {n : Nat} :
    ∀ (pairs : List (Nat × ℝ)) (init : Nat × ℝ), init.1 < n →
      (∀ p ∈ pairs, p.1 < n) →
      (pairs.foldl (fun best p => if best.2 < p.2 then p else best) init).1 < n := by
  intro pairs
  induction pairs with
  | nil => intro init h _; exact h
  | cons p ps ih =>
    intro init hinit hall
    simp only [List.foldl_cons]
    apply ih
    · by_cases hc : init.2 < p.2
      · rw [if_pos hc]
        exact hall p (List.mem_cons_self _ _)
      · rw [if_neg hc]
        exact hinit
    · intro q hq
      exact hall q (List.mem_cons_of_mem _ hq)

theorem idxOfMax_lt {l : List ℝ} (h : l ≠ []) : idxOfMax l < l.length := by
  unfold idxOfMax
  apply foldl_argmax_lt
  · simpa using List.length_pos.mpr h
  · intro p hp
    have := List.mem_enum_iff_getElem?.mp hp
    exact (List.getElem?_eq_some.mp this).1

theorem filterMap_get_length {α : Type} (l : List α) :
    ∀ idxs : List Nat, (∀ i ∈ idxs, i < l.length) →
      (idxs.filterMap (fun i => l.get? i)).length = idxs.length := by
  intro idxs
  induction idxs with
  | nil => intro _; rfl
  | cons i is ih =>
    intro h
    have hi : i < l.length := h i (List.mem_cons_self _ _)
    rcases List.get?_eq_get hi with hsome
    simp only [List.filterMap_cons, hsome, List.length_cons]
    rw [ih (fun j hj => h j (List.mem_cons_of_mem _ hj))]

theorem filterMap_get_subset {α : Type} {l : List α} {idxs : List Nat} {x : α}
    (hx : x ∈ idxs.filterMap (fun i => l.get? i)) : x ∈ l := by
  rcases List.mem_filterMap.mp hx with ⟨i, _, hget⟩
  exact List.get?_mem hget

/-- Under a well-formed encoder (one embedding per text), every theme's title
is derived from some representative text via `themeTitle`. -/
theorem buildThemes_title {texts : List Str} {embeddings : List (List ℝ)}
    {labels : List Nat} {k : Nat} (hlen : embeddings.length = texts.length)
    {th : Theme} (hth : th ∈ buildThemes texts embeddings labels k) :
    ∃ rep, rep ∈ texts ∧ th.title = themeTitle rep := by
  unfold buildThemes at hth
  rw [mem_sortDescBy] at hth
  rcases List.mem_filterMap.mp hth with ⟨cid, _, hf⟩
  simp only at hf
  split at hf
  · exact absurd hf (by simp)
  · rename_i hne
    rw [Option.some_inj] at hf
    subst hf
    simp only
    set idxT := (List.range texts.length).filter (fun i => labels.get? i = some cid)
      with hidxT
    have hallT : ∀ i ∈ idxT, i < texts.length := by
      intro i hi
      rw [hidxT] at hi
      exact List.mem_range.mp (List.mem_of_mem_filter hi)
    have hidxE : (List.range embeddings.length).filter
        (fun i => labels.get? i = some cid) = idxT := by
      rw [hidxT, hlen]
    rw [hidxE]
    have hlenT : (idxT.filterMap (fun i => texts.get? i)).length = idxT.length :=
      filterMap_get_length texts idxT hallT
    have hlenE : (idxT.filterMap (fun i => embeddings.get? i)).length = idxT.length :=
      filterMap_get_length embeddings idxT (fun i hi => by rw [hlen]; exact hallT i hi)
    have hne' : idxT.filterMap (fun i => texts.get? i) ≠ [] := by
      intro hnil
      rw [hnil] at hne
      simp at hne
    have hsimsne : (idxT.filterMap (fun i => embeddings.get? i)).map
        (fun emb => cosSim (vmean (idxT.filterMap (fun i => embeddings.get? i))) emb)
        ≠ [] := by
      intro hnil
      have := congrArg List.length hnil
      simp only [List.length_map, hlenE, List.length_nil] at this
      apply hne'
      exact List.length_eq_zero.mp (by rw [hlenT, this])
    have hidx : idxOfMax ((idxT.filterMap (fun i => embeddings.get? i)).map
        (fun emb => cosSim (vmean (idxT.filterMap (fun i => embeddings.get? i))) emb))
        < (idxT.filterMap (fun i => texts.get? i)).length := by
      have h1 := idxOfMax_lt hsimsne
      rw [List.length_map, hlenE] at h1
      rw [hlenT]
      exact h1
    rcases List.get?_eq_get hidx with hget
    have hrep : (idxT.filterMap (fun i => texts.get? i)).getD
        (idxOfMax ((idxT.filterMap (fun i => embeddings.get? i)).map
          (fun emb => cosSim (vmean (idxT.filterMap (fun i => embeddings.get? i))) emb))) []
        ∈ idxT.filterMap (fun i => texts.get? i) := by
      rw [List.getD_eq_get?, hget]
      simp only [Option.getD_some]
      exact List.get_mem _ _ _
    exact ⟨_, filterMap_get_subset hrep, rfl⟩

/-! ## The seen-set loop equals the first-occurrence characterisation -/

theorem find?_filter_of_imp {α : Type} (p q : α → Bool)
    (hpq : ∀ a, p a = true → q a = true) :
    ∀ l : List α, (l.filter q).find? p = l.find? p := by
  intro l
  induction l with
  | nil => rfl
  | cons x xs ih =>
    cases hq : q x with
    | false =>
      have hp : p x = false := by
        cases hb : p x
        · rfl
        · rw [hpq x hb] at hq
          exact absurd hq (by simp)
      rw [List.filter_cons, hq, if_neg Bool.false_ne_true, ih,
        List.find?_cons_of_neg _ (by simp [hp])]
    | true =>
      rw [List.filter_cons, hq, if_pos rfl]
      cases hp : p x with
      | true => rw [List.find?_cons_of_pos _ hp, List.find?_cons_of_pos _ hp]
      | false =>
        rw [List.find?_cons_of_neg _ (by simp [hp]),
          List.find?_cons_of_neg _ (by simp [hp]), ih]

theorem specDedup_sublist_aux : ∀ (n : Nat) (l : List Decision), l.length ≤ n →
    List.Sublist (specDedup l) l := by
  intro n
  induction n with
  | zero =>
    intro l hl
    have : l = [] := List.length_eq_zero.mp (Nat.le_zero.mp hl)
    subst this
    simp [specDedup]
  | succ n ih =>
    intro l hl
    cases l with
    | nil => simp [specDedup]
    | cons d ds =>
      simp only [specDedup]
      refine List.Sublist.cons₂ d ?_
      exact (ih _ (le_trans (List.length_filter_le _ _) (by simpa using hl))).trans
        (List.filter_sublist ds)

theorem specDedup_sublist (l : List Decision) : List.Sublist (specDedup l) l :=
  specDedup_sublist_aux l.length l (le_refl _)

theorem specDedup_count_aux : ∀ (n : Nat) (l : List Decision), l.length ≤ n →
    ∀ d ∈ l, ((specDedup l).filter
      (fun x => decide (x.title = d.title))).length = 1 := by
  intro n
  induction n with
  | zero =>
    intro l hl d hd
    have : l = [] := List.length_eq_zero.mp (Nat.le_zero.mp hl)
    subst this
    simp at hd
  | succ n ih =>
    intro l hl d hd
    cases l with
    | nil => simp at hd
    | cons x xs =>
      simp only [specDedup]
      by_cases h : d.title = x.title
      · rw [List.filter_cons, decide_eq_true h.symm, if_pos rfl]
        have hnil : (specDedup (xs.filter
            (fun y => !(decide (y.title = x.title))))).filter
            (fun y => decide (y.title = d.title)) = [] := by
          rw [List.filter_eq_nil_iff]
          intro a ha
          have hamem : a ∈ xs.filter (fun y => !(decide (y.title = x.title))) :=
            (specDedup_sublist _).subset ha
          have hne := List.of_mem_filter hamem
          simp only [Bool.not_eq_eq_eq_not, Bool.not_true, decide_eq_false_iff_not] at hne
          simp only [decide_eq_true_eq]
          intro hcontra
          exact hne (hcontra.trans h)
        rw [hnil]
        rfl
      · have hxd : decide (x.title = d.title) = false :=
          decide_eq_false (fun he => h he.symm)
        rw [List.filter_cons, hxd, if_neg Bool.false_ne_true]
        have hdxs : d ∈ xs := by
          rcases List.mem_cons.mp hd with rfl | hmem
          · exact absurd rfl h
          · exact hmem
        have hdf : d ∈ xs.filter (fun y => !(decide (y.title = x.title))) :=
          List.mem_filter.mpr ⟨hdxs, by simp [h]⟩
        exact ih _ (le_trans (List.length_filter_le _ _) (by simpa using hl)) d hdf

theorem specDedup_count {l : List Decision} {d : Decision} (hd : d ∈ l) :
    ((specDedup l).filter (fun x => decide (x.title = d.title))).length = 1 :=
  specDedup_count_aux l.length l (le_refl _) d hd

theorem specDedup_find?_aux : ∀ (n : Nat) (l : List Decision), l.length ≤ n →
    ∀ d ∈ specDedup l,
      l.find? (fun x => decide (x.title = d.title)) = some d := by
  intro n
  induction n with
  | zero =>
    intro l hl d hd
    have : l = [] := List.length_eq_zero.mp (Nat.le_zero.mp hl)
    subst this
    simp [specDedup] at hd
  | succ n ih =>
    intro l hl d hd
    cases l with
    | nil => simp [specDedup] at hd
    | cons x xs =>
      simp only [specDedup] at hd
      rcases List.mem_cons.mp hd with rfl | hmem
      · rw [List.find?_cons_of_pos _ (by simp)]
      · have hmem' : d ∈ xs.filter (fun y => !(decide (y.title = x.title))) :=
          (specDedup_sublist _).subset hmem
        have hne : d.title ≠ x.title := by
          have := List.of_mem_filter hmem'
          simpa using this
        rw [List.find?_cons_of_neg _
          (by simp only [decide_eq_true_eq]; exact fun he => hne he.symm)]
        have hfil := ih _ (le_trans (List.length_filter_le _ _)
          (by simpa using hl)) d hmem
        rw [← find?_filter_of_imp (fun y => decide (y.title = d.title))
          (fun y => !(decide (y.title = x.title))) ?_ xs]
        · exact hfil
        · intro a ha
          simp only [decide_eq_true_eq] at ha
          simp [ha, hne]

theorem specDedup_find? {l : List Decision} {d : Decision} (hd : d ∈ specDedup l) :
    l.find? (fun x => decide (x.title = d.title)) = some d :=
  specDedup_find?_aux l.length l (le_refl _) d hd

theorem dedupAux_eq_specDedup_aux : ∀ (n : Nat) (l : List Decision), l.length ≤ n →
    ∀ seen : List Str, dedupAux seen l
      = specDedup (l.filter (fun x => !(decide (x.title ∈ seen)))) := by
  intro n
  induction n with
  | zero =>
    intro l hl seen
    have : l = [] := List.length_eq_zero.mp (Nat.le_zero.mp hl)
    subst this
    simp [dedupAux, specDedup]
  | succ n ih =>
    intro l hl seen
    cases l with
    | nil => simp [dedupAux, specDedup]
    | cons x xs =>
      by_cases hx : x.title ∈ seen
      · have h1 : dedupAux seen (x :: xs) = dedupAux seen xs := by
          simp only [dedupAux, if_pos hx]
        rw [h1, List.filter_cons,
          show (!(decide (x.title ∈ seen))) = false from by simp [hx],
          if_neg Bool.false_ne_true]
        exact ih xs (by simpa using hl) seen
      · have h1 : dedupAux seen (x :: xs) = x :: dedupAux (x.title :: seen) xs := by
          simp only [dedupAux, if_neg hx]
        rw [h1, List.filter_cons,
          show (!(decide (x.title ∈ seen))) = true from by simp [hx],
          if_pos rfl]
        simp only [specDedup]
        refine List.cons_eq_cons.mpr ⟨rfl, ?_⟩
        rw [ih xs (by simpa using hl) (x.title :: seen), List.filter_filter]
        congr 1
        apply List.filter_congr
        intro a _
        by_cases h1 : a.title = x.title <;> by_cases h2 : a.title ∈ seen <;>
          simp [h1, h2, List.mem_cons]

/-- The code's `seen_titles` loop computes exactly the first-occurrence
deduplication described by the spec. -/
theorem dedupFirst_eq_specDedup (l : List Decision) : dedupFirst l = specDedup l := by
  unfold dedupFirst
  rw [dedupAux_eq_specDedup_aux l.length l (le_refl _) []]
  congr 1
  rw [show l.filter (fun x => !(decide (x.title ∈ ([] : List Str))))
      = l.filter (fun _ => true) from List.filter_congr (fun a _ => by simp)]
  exact List.filter_true l


/-! ## Claim theorems -/

/-- C2: for every segment sequence, the important-note extractor keeps exactly
the segments whose closed-form score (total regex-match occurrences over the
eight categories, plus the `?` count, plus the `!` count, plus 1 when the
word count exceeds 20) is positive, scores each with that closed-form sum,
sorts by descending score and truncates to the top 10; the output is sorted
non-increasingly by importance. -/
theorem claim2_important_note_scoring (ts : List Transcript) :
    extract_important_notes ts =
      (sortDescBy ImportantNote.importance
        ((ts.filter (fun t => 0 < specScore t.content)).map
          (fun t => { content := t.content, speaker_id := t.speaker_id,
                      timestamp := t.timestamp,
                      importance := specScore t.content }))).take 10
    ∧ (extract_important_notes ts).Pairwise
        (fun a b => b.importance ≤ a.importance) := by
  constructor
  · unfold extract_important_notes
    rw [importantLoop_eq]
  · unfold extract_important_notes
    exact List.Pairwise.sublist (List.take_sublist _ _) (pairwise_sortDescBy _ _)

theorem claim2_important_note_scoring_witness :
    extract_important_notes [segLaunch, segJohn] =
      (sortDescBy ImportantNote.importance
        (([segLaunch, segJohn].filter (fun t => 0 < specScore t.content)).map
          (fun t => { content := t.content, speaker_id := t.speaker_id,
                      timestamp := t.timestamp,
                      importance := specScore t.content }))).take 10
    ∧ (extract_important_notes [segLaunch, segJohn]).Pairwise
        (fun a b => b.importance ≤ a.importance) :=
  claim2_important_note_scoring [segLaunch, segJohn]

/-- C3: the computed importance score is monotone under appending one
additional occurrence of any keyword of the eight categories (appended as a
separate word, i.e. preceded by a space, so that it is matched). -/
theorem claim3_score_monotone (content kw : Str) (hkw : kw ∈ importantKeywords) :
    incScore content ≤ incScore (content ++ ' ' :: kw) := by
  rw [incScore_eq_specScore, incScore_eq_specScore]
  exact specScore_append_keyword content kw hkw

theorem claim3_score_monotone_witness :
    chars "key" ∈ importantKeywords ∧
      incScore (chars "open the door") ≤
        incScore (chars "open the door" ++ ' ' :: chars "key") :=
  ⟨by decide, claim3_score_monotone (chars "open the door") (chars "key") (by decide)⟩

/-- C6: decision extraction returns exactly the first 10 of the surviving
decisions, where the survivors are characterised independently of the code's
loop by `specDedup` (keep the first decision of each title, erase the later
ones, preserving encounter order): the output equals
`(specDedup raw).take 10`; the survivor list is a sublist of the raw stream;
every raw decision's title appears among the survivors exactly once (so two
segments yielding identical derived titles contribute exactly one surviving
decision, and — whenever the survivors fit the cap of 10 — exactly one
decision in the output); each survivor is the first raw decision carrying
its title; output titles are pairwise distinct and at most 10 decisions are
returned. -/
theorem claim6_decision_dedup (ts : List Transcript) :
    extract_decisions ts = (specDedup (rawDecisions ts)).take 10 ∧
    List.Sublist (specDedup (rawDecisions ts)) (rawDecisions ts) ∧
    (∀ d ∈ rawDecisions ts,
      ((specDedup (rawDecisions ts)).filter
        (fun x => decide (x.title = d.title))).length = 1) ∧
    (∀ d ∈ specDedup (rawDecisions ts),
      (rawDecisions ts).find? (fun x => decide (x.title = d.title)) = some d) ∧
    ((specDedup (rawDecisions ts)).length ≤ 10 →
      ∀ d ∈ rawDecisions ts,
        ((extract_decisions ts).filter
          (fun x => decide (x.title = d.title))).length = 1) ∧
    ((extract_decisions ts).map Decision.title).Nodup ∧
    (extract_decisions ts).length ≤ 10 := by
  refine ⟨?_, ?_, ?_, ?_, ?_, ?_, ?_⟩
  · unfold extract_decisions
    rw [dedupFirst_eq_specDedup]
  · exact specDedup_sublist _
  · intro d hd
    exact specDedup_count hd
  · intro d hd
    exact specDedup_find? hd
  · intro hlen d hd
    have heq : extract_decisions ts = specDedup (rawDecisions ts) := by
      unfold extract_decisions
      rw [dedupFirst_eq_specDedup, List.take_of_length_le hlen]
    rw [heq]
    exact specDedup_count hd
  · unfold extract_decisions dedupFirst
    exact List.Nodup.sublist ((List.take_sublist _ _).map _)
      (dedupAux_titles_nodup [] _)
  · unfold extract_decisions
    exact List.length_take_le _ _

theorem claim6_decision_dedup_witness :
    extract_decisions dupSegs = (specDedup (rawDecisions dupSegs)).take 10 ∧
    ((specDedup (rawDecisions dupSegs)).filter
      (fun x => decide (x.title = (mkDecision (chars "we agreed to ship")
        (mkSeg "we agreed to ship.")).title))).length = 1 ∧
    ((extract_decisions dupSegs).filter
      (fun x => decide (x.title = (mkDecision (chars "we agreed to ship")
        (mkSeg "we agreed to ship.")).title))).length = 1 ∧
    (extract_decisions dupSegs).length ≤ 10 :=
  ⟨(claim6_decision_dedup dupSegs).1,
   (claim6_decision_dedup dupSegs).2.2.1 _ (by decide),
   (claim6_decision_dedup dupSegs).2.2.2.2.1
     (by rw [← dedupFirst_eq_specDedup]; decide) _ (by decide),
   (claim6_decision_dedup dupSegs).2.2.2.2.2.2⟩

/-- C7 (amended): a segment produces an action item exactly when at least 2
of the five pattern categories match, one item per qualifying segment, in
encounter order, but the output is capped at the first 15 such items (so a
qualifying segment beyond the 15th produces nothing). -/
theorem claim7_threshold_amended (ts : List Transcript) :
    extract_action_items ts =
      ((ts.filter (fun t => 2 ≤ actionScore t.content)).map mkActionItem).take 15
    ∧ (extract_action_items ts).length ≤ 15 := by
  constructor
  · unfold extract_action_items
    rw [actionLoop_eq]
  · unfold extract_action_items
    exact List.length_take_le _ _

theorem claim7_threshold_amended_witness :
    extract_action_items [segLaunch, segJohn] =
      (([segLaunch, segJohn].filter (fun t => 2 ≤ actionScore t.content)).map
        mkActionItem).take 15
    ∧ (extract_action_items [segLaunch, segJohn]).length ≤ 15 :=
  claim7_threshold_amended [segLaunch, segJohn]

/-- C7 (counterexample to the claim as stated): sixteen distinct segments all
match 2 categories, yet the output holds only 15 items and the sixteenth
segment's item is missing. -/
theorem claim7_threshold_counterexample :
    manyActionSegs.length = 16 ∧
    (∀ t ∈ manyActionSegs, 2 ≤ actionScore t.content) ∧
    (extract_action_items manyActionSegs).length = 15 ∧
    chars "task 16 deadline" ∉
      (extract_action_items manyActionSegs).map ActionItem.description := by
  refine ⟨by decide, by decide, by decide, by decide⟩

/-- C9 (amended): the fallback summarizer's "last" window is empty when the
segment count is at most 3, and the "first 3" / "last 3" windows are
non-overlapping (the list splits as first ++ middle ++ last) only once the
count reaches 6. -/
theorem claim9_windows_amended (ts : List Transcript) :
    (ts.length ≤ 3 → basicLast ts = []) ∧
    (6 ≤ ts.length → ∃ mid, ts = basicFirst ts ++ mid ++ basicLast ts) := by
  constructor
  · intro h
    unfold basicLast
    rw [if_neg (by omega)]
  · intro h
    refine ⟨(ts.drop 3).take (ts.length - 6), ?_⟩
    unfold basicFirst basicLast
    rw [if_pos (by omega)]
    have hsplit : ts.drop 3 =
        (ts.drop 3).take (ts.length - 6) ++ ts.drop (ts.length - 3) := by
      conv_lhs => rw [← List.take_append_drop (ts.length - 6) (ts.drop 3)]
      congr 1
      rw [List.drop_drop]
      congr 1
      omega
    calc ts = ts.take 3 ++ ts.drop 3 := (List.take_append_drop 3 ts).symm
      _ = ts.take 3 ++ ((ts.drop 3).take (ts.length - 6) ++ ts.drop (ts.length - 3)) := by
          rw [← hsplit]
      _ = ts.take 3 ++ (ts.drop 3).take (ts.length - 6) ++ ts.drop (ts.length - 3) := by
          rw [List.append_assoc]

theorem claim9_windows_amended_witness :
    ∃ mid, sixSegs = basicFirst sixSegs ++ mid ++ basicLast sixSegs :=
  (claim9_windows_amended sixSegs).2 (by decide)

/-- C9 (counterexample to the claim as stated): with four segments the two
windows overlap (`b` is in both), although the count exceeds 3. -/
theorem claim9_window_counterexample :
    3 < fourSegs.length ∧ basicLast fourSegs ≠ [] ∧
      mkSeg "b" ∈ basicFirst fourSegs ∧ mkSeg "b" ∈ basicLast fourSegs := by
  refine ⟨by decide, by decide, by decide, by decide⟩

/-- C10: every emitted action item's description is the originating segment's
full content, and its title is the first 100 characters of that content with
an ellipsis appended exactly when the content exceeds 100 characters. -/
theorem claim10_action_item_fields (ts : List Transcript) :
    ∀ item ∈ extract_action_items ts,
      (∃ t ∈ ts, item.description = t.content) ∧
      item.title = item.description.take 100 ++
        (if 100 < item.description.length then chars "..." else []) := by
  intro item hitem
  unfold extract_action_items at hitem
  rw [actionLoop_eq] at hitem
  have hitem' := List.mem_of_mem_take hitem
  rcases List.mem_map.mp hitem' with ⟨t, ht, rfl⟩
  constructor
  · exact ⟨t, List.mem_of_mem_filter ht, rfl⟩
  · rfl

theorem claim10_action_item_fields_witness :
    (∃ t ∈ [segLaunch, segJohn], (mkActionItem segJohn).description = t.content) ∧
    (mkActionItem segJohn).title = (mkActionItem segJohn).description.take 100 ++
      (if 100 < (mkActionItem segJohn).description.length then chars "..." else []) :=
  claim10_action_item_fields [segLaunch, segJohn] (mkActionItem segJohn) (by decide)

/-- C8: a run whose reads fail performs no cache write and yields no result;
a run over zero stored segments returns the no-data result (`none`) and
performs no cache write; a successful run over at least one segment performs
exactly one cache write, under the key `processed_notes:{meeting_id}` with
the 24-hour (86400s) expiry, holding the produced artifact. -/
theorem claim8_process_writes (mid : Str) (store : List (Option Transcript))
    (redisFails : Bool) (enc : List Str → List (List ℝ))
    (clu : List (List ℝ) → Nat → List Nat) (now : Str) :
    (redisFails = true →
      process_meeting_notes mid store redisFails enc clu now = (none, [])) ∧
    (redisFails = false → store.filterMap (fun x => x) = [] →
      process_meeting_notes mid store redisFails enc clu now = (none, [])) ∧
    (redisFails = false → store.filterMap (fun x => x) ≠ [] →
      ∃ a, process_meeting_notes mid store redisFails enc clu now =
        (some a, [⟨chars "processed_notes:" ++ mid, 86400, a⟩])) := by
  refine ⟨?_, ?_, ?_⟩
  · intro h
    subst h
    rfl
  · intro h hempty
    subst h
    unfold process_meeting_notes
    rw [if_neg Bool.false_ne_true, if_pos]
    rw [hempty]
    rfl
  · intro h hne
    subst h
    unfold process_meeting_notes
    rw [if_neg Bool.false_ne_true, if_neg]
    · exact ⟨_, rfl⟩
    · simp only [List.isEmpty_iff]
      exact hne

theorem claim8_process_writes_witness :
    ∃ a, process_meeting_notes (chars "m1") [some segJohn] false
        (fun _ => []) (fun _ _ => []) (chars "t0") =
      (some a, [⟨chars "processed_notes:" ++ chars "m1", 86400, a⟩]) :=
  (claim8_process_writes (chars "m1") [some segJohn] false
    (fun _ => []) (fun _ _ => []) (chars "t0")).2.2 rfl (by decide)

/-- C1 (code behaviour at the spec's end-to-end example): the first decision
pattern does match the first segment (the raw matched text is "We decided"),
but the sentence-location step compares that raw, capitalised text against
the lower-cased sentence, so the substring check fails and the decision
extractor returns no decision at all; the action-item extractor does return
exactly one item, assigned to "John" with due date "March 5". -/
theorem claim1_code_behavior :
    ciSlices [chars "we decided", chars "we agreed", chars "we concluded",
        chars "we determined"] segLaunch.content = [chars "We decided"] ∧
    containsSub (lowerStr (chars "We decided to launch next week"))
      (chars "We decided") = false ∧
    extract_decisions [segLaunch, segJohn] = [] ∧
    (extract_action_items [segLaunch, segJohn]).map
      (fun i => (i.description, i.assigned_to_name, i.due_date)) =
      [(chars "John will follow up by March 5 on the budget issue.",
        some (chars "John"), some (chars "March 5"))] := by
  refine ⟨by decide, by decide, by decide, by decide⟩

/-! ## One-dimensional cosine evaluations -/

theorem dotSum_single (x y : ℝ) : dotSum [x] [y] = x * y := by
  simp [dotSum, dotL]

theorem norm2_single (x : ℝ) : norm2 [x] = |x| := by
  unfold norm2
  rw [dotSum_single, show x * x = x ^ 2 from by ring, Real.sqrt_sq_eq_abs]

theorem cosSim_single (x y : ℝ) (hx : x ≠ 0) (hy : y ≠ 0) :
    cosSim [x] [y] = (x * y) / (|x| * |y|) := by
  unfold cosSim
  rw [norm2_single, norm2_single, dotSum_single]
  rw [if_neg]
  push_neg
  exact ⟨abs_ne_zero.mpr hx, abs_ne_zero.mpr hy⟩

theorem cosSim_one_six : cosSim [(1 : ℝ)] [6] = 1 := by
  rw [cosSim_single 1 6 (by norm_num) (by norm_num)]
  rw [abs_of_pos (by norm_num : (0:ℝ) < 1), abs_of_pos (by norm_num : (0:ℝ) < 6)]
  norm_num

theorem cosSim_one_negone : cosSim [(1 : ℝ)] [-1] = -1 := by
  rw [cosSim_single 1 (-1) (by norm_num) (by norm_num)]
  rw [abs_of_pos (by norm_num : (0:ℝ) < 1),
    abs_of_neg (by norm_num : (-1:ℝ) < 0)]
  norm_num

theorem cosSim_one_negtwo : cosSim [(1 : ℝ)] [-2] = -1 := by
  rw [cosSim_single 1 (-2) (by norm_num) (by norm_num)]
  rw [abs_of_pos (by norm_num : (0:ℝ) < 1),
    abs_of_neg (by norm_num : (-2:ℝ) < 0)]
  norm_num

theorem cosSim_self_pos (x : ℝ) (hx : 0 < x) : cosSim [x] [x] = 1 := by
  rw [cosSim_single x x (ne_of_gt hx) (ne_of_gt hx)]
  rw [abs_of_pos hx]
  field_simp

theorem vmean_seven : vmean [[(6:ℝ)], [-1], [-2]] = [1] := by
  unfold vmean
  norm_num [List.range_succ, List.range_zero]

theorem listMean_neg : listMean [(1:ℝ), -1, -1] = -1 / 3 := by
  unfold listMean
  norm_num

theorem idxOfMax_neg : idxOfMax [(1:ℝ), -1, -1] = 0 := by
  unfold idxOfMax
  norm_num [List.enum, List.enumFrom]

/-- C4 (amended): for every run of theme extraction (over arbitrary
embeddings and cluster labels), each theme's confidence lies in [-1, 1] (the
range of a mean of cosine similarities), and the returned list is sorted
non-increasingly by confidence. -/
theorem claim4_confidence_amended (enc : List Str → List (List ℝ))
    (clu : List (List ℝ) → Nat → List Nat) (ts : List Transcript) (k : Nat) :
    (∀ th ∈ extract_themes_from_transcripts enc clu ts k,
      -1 ≤ th.confidence ∧ th.confidence ≤ 1) ∧
    (extract_themes_from_transcripts enc clu ts k).Pairwise
      (fun a b => b.confidence ≤ a.confidence) := by
  have key : ∀ L : List Theme,
      (L = [] ∨ ∃ (a : List Str) (b : List (List ℝ)) (c : List Nat) (n : Nat),
        L = buildThemes a b c n) →
      (∀ th ∈ L, -1 ≤ th.confidence ∧ th.confidence ≤ 1) ∧
      L.Pairwise (fun a b => b.confidence ≤ a.confidence) := by
    intro L hL
    rcases hL with rfl | ⟨a, b, c, n, rfl⟩
    · exact ⟨fun th h => absurd h (List.not_mem_nil th), List.Pairwise.nil⟩
    · exact ⟨fun th h => buildThemes_mem_conf _ _ _ _ h, buildThemes_sorted _ _ _ _⟩
  apply key
  unfold extract_themes_from_transcripts
  by_cases h1 : ts.length < 2
  · rw [if_pos h1]
    exact Or.inl rfl
  · rw [if_neg h1]
    dsimp only
    by_cases h2 : (List.filter (fun c => !stripEmpty c)
        (List.map Transcript.content ts)).length < 2
    · rw [if_pos h2]
      exact Or.inl rfl
    · rw [if_neg h2]
      by_cases h3 : min k (List.filter (fun c => !stripEmpty c)
          (List.map Transcript.content ts)).length < 2
      · rw [if_pos h3]
        exact Or.inl rfl
      · rw [if_neg h3]
        exact Or.inr ⟨_, _, _, _, rfl⟩

theorem claim4_confidence_amended_witness :
    (∀ th ∈ extract_themes_from_transcripts encTwo cluTwo titleSegs 5,
      -1 ≤ th.confidence ∧ th.confidence ≤ 1) ∧
    (extract_themes_from_transcripts encTwo cluTwo titleSegs 5).Pairwise
      (fun a b => b.confidence ≤ a.confidence) :=
  claim4_confidence_amended encTwo cluTwo titleSegs 5

/-- C4 (counterexample to the claim as stated): over the mixed-sign
embedding configuration `encSeven`/`cluSeven` (a stable KMeans clustering of
the seven points), the produced artifact contains a theme whose confidence
is `-1/3`, outside `[0, 1]`. -/
theorem claim4_confidence_counterexample :
    themeNeg ∈ extract_themes_from_transcripts encSeven cluSeven sevenSegs 5 ∧
    themeNeg.confidence < 0 := by
  have hw : extract_themes_from_transcripts encSeven cluSeven sevenSegs 5
      = buildThemes
          [chars "a1", chars "a2", chars "a3", chars "a4", chars "a5",
           chars "a6", chars "a7"]
          [[(6:ℝ)], [-1], [-2], [1000], [2000], [3000], [4000]]
          [0, 0, 0, 1, 2, 3, 4] 5 := by
    unfold extract_themes_from_transcripts
    rw [if_neg (by decide : ¬ sevenSegs.length < 2)]
    dsimp only
    rw [show List.filter (fun c => !stripEmpty c) (List.map Transcript.content sevenSegs)
        = [chars "a1", chars "a2", chars "a3", chars "a4", chars "a5",
           chars "a6", chars "a7"] from by decide]
    rw [if_neg (by decide), if_neg (by decide)]
    rw [show encSeven [chars "a1", chars "a2", chars "a3", chars "a4", chars "a5",
        chars "a6", chars "a7"]
        = [[(6:ℝ)], [-1], [-2], [1000], [2000], [3000], [4000]] from rfl]
    rw [show cluSeven [[(6:ℝ)], [-1], [-2], [1000], [2000], [3000], [4000]]
        (min 5 ([chars "a1", chars "a2", chars "a3", chars "a4", chars "a5",
          chars "a6", chars "a7"] : List Str).length)
        = [0, 0, 0, 1, 2, 3, 4] from rfl]
    norm_num
  refine ⟨?_, by norm_num [themeNeg]⟩
  rw [hw]
  unfold buildThemes
  rw [mem_sortDescBy]
  refine List.mem_filterMap.mpr ⟨0, by decide, ?_⟩
  dsimp only
  rw [show List.filterMap
      (fun i => ([chars "a1", chars "a2", chars "a3", chars "a4", chars "a5",
        chars "a6", chars "a7"] : List Str).get? i)
      (List.filter (fun i => decide (([0, 0, 0, 1, 2, 3, 4] : List Nat).get? i = some 0))
        (List.range ([chars "a1", chars "a2", chars "a3", chars "a4", chars "a5",
          chars "a6", chars "a7"] : List Str).length))
      = [chars "a1", chars "a2", chars "a3"] from by decide]
  rw [show List.filterMap
      (fun i => ([[(6:ℝ)], [-1], [-2], [1000], [2000], [3000], [4000]] : List (List ℝ)).get? i)
      (List.filter (fun i => decide (([0, 0, 0, 1, 2, 3, 4] : List Nat).get? i = some 0))
        (List.range ([[(6:ℝ)], [-1], [-2], [1000], [2000], [3000], [4000]] : List (List ℝ)).length))
      = [[(6:ℝ)], [-1], [-2]] from rfl]
  rw [if_neg (by decide : ¬ ([chars "a1", chars "a2", chars "a3"] : List Str).isEmpty = true)]
  rw [vmean_seven]
  rw [show List.map (fun emb => cosSim [(1:ℝ)] emb) ([[(6:ℝ)], [-1], [-2]] : List (List ℝ))
      = [(1:ℝ), -1, -1] from by
    rw [List.map_cons, List.map_cons, List.map_cons, List.map_nil,
      cosSim_one_six, cosSim_one_negone, cosSim_one_negtwo]]
  rw [idxOfMax_neg, listMean_neg]
  rw [show ([chars "a1", chars "a2", chars "a3"] : List Str).getD 0 [] = chars "a1" from rfl]
  rw [show themeTitle (chars "a1") = chars "a1" from by decide]
  rfl

theorem vmean_single : vmean [[(1:ℝ)]] = [1] := by
  unfold vmean
  norm_num [List.range_succ, List.range_zero]

theorem idxOfMax_single : idxOfMax [(1:ℝ)] = 0 := by
  unfold idxOfMax
  norm_num [List.enum, List.enumFrom]

theorem listMean_single : listMean [(1:ℝ)] = 1 := by
  unfold listMean
  norm_num

/-- C5 (amended): every theme title is the representative text's first
period-delimited sentence truncated to 100 characters, with the ellipsis
marker appended exactly when the whole representative text (not the first
sentence) exceeds 100 characters; the representative text is one of the
clustered texts.  Hypothesis: the encoder returns one embedding per text. -/
theorem claim5_title_amended (enc : List Str → List (List ℝ))
    (clu : List (List ℝ) → Nat → List Nat) (ts : List Transcript) (k : Nat)
    (henc : ∀ xs, (enc xs).length = xs.length) :
    ∀ th ∈ extract_themes_from_transcripts enc clu ts k,
      ∃ rep, rep ∈ ts.map Transcript.content ∧
        th.title = ((splitOnDot rep).headD []).take 100 ++
          (if 100 < rep.length then chars "..." else []) := by
  intro th hth
  unfold extract_themes_from_transcripts at hth
  by_cases h1 : ts.length < 2
  · rw [if_pos h1] at hth
    exact absurd hth (List.not_mem_nil th)
  · rw [if_neg h1] at hth
    dsimp only at hth
    by_cases h2 : (List.filter (fun c => !stripEmpty c)
        (List.map Transcript.content ts)).length < 2
    · rw [if_pos h2] at hth
      exact absurd hth (List.not_mem_nil th)
    · rw [if_neg h2] at hth
      by_cases h3 : min k (List.filter (fun c => !stripEmpty c)
          (List.map Transcript.content ts)).length < 2
      · rw [if_pos h3] at hth
        exact absurd hth (List.not_mem_nil th)
      · rw [if_neg h3] at hth
        rcases buildThemes_title (henc _) hth with ⟨rep, hrepmem, hteq⟩
        exact ⟨rep, List.mem_of_mem_filter hrepmem, by rw [hteq]; rfl⟩

theorem claim5_title_amended_witness :
    (∀ xs : List Str, (encTwo xs).length = xs.length) ∧
    (∀ th ∈ extract_themes_from_transcripts encTwo cluTwo titleSegs 5,
      ∃ rep, rep ∈ titleSegs.map Transcript.content ∧
        th.title = ((splitOnDot rep).headD []).take 100 ++
          (if 100 < rep.length then chars "..." else [])) :=
  ⟨fun xs => by simp [encTwo],
   claim5_title_amended encTwo cluTwo titleSegs 5 (fun xs => by simp [encTwo])⟩

/-- C5 (counterexample to the claim as stated): for the representative text
`okLong` the first sentence is "Ok" (2 characters, not truncated), yet the
produced theme title is "Ok..." because the code tests the length of the
whole representative text. -/
theorem claim5_title_counterexample :
    themeOk ∈ extract_themes_from_transcripts encTwo cluTwo titleSegs 5 ∧
    themeOk.title = chars "Ok..." ∧
    ((splitOnDot okLong).headD []).length ≤ 100 ∧
    themeOk.title ≠ ((splitOnDot okLong).headD []).take 100 := by
  refine ⟨?_, by decide, by decide, by decide⟩
  have hw : extract_themes_from_transcripts encTwo cluTwo titleSegs 5
      = buildThemes [okLong, chars "bb"] [[(1:ℝ)], [1]] [0, 1] 2 := by
    unfold extract_themes_from_transcripts
    rw [if_neg (by decide : ¬ titleSegs.length < 2)]
    dsimp only
    rw [show List.filter (fun c => !stripEmpty c) (List.map Transcript.content titleSegs)
        = [okLong, chars "bb"] from by decide]
    rw [if_neg (by decide), if_neg (by decide)]
    rw [show encTwo [okLong, chars "bb"] = [[(1:ℝ)], [1]] from rfl]
    rw [show cluTwo [[(1:ℝ)], [1]]
        (min 5 ([okLong, chars "bb"] : List Str).length) = [0, 1] from rfl]
    norm_num
  rw [hw]
  unfold buildThemes
  rw [mem_sortDescBy]
  refine List.mem_filterMap.mpr ⟨0, by decide, ?_⟩
  dsimp only
  rw [show List.filterMap (fun i => ([okLong, chars "bb"] : List Str).get? i)
      (List.filter (fun i => decide (([0, 1] : List Nat).get? i = some 0))
        (List.range ([okLong, chars "bb"] : List Str).length))
      = [okLong] from by decide]
  rw [show List.filterMap (fun i => ([[(1:ℝ)], [1]] : List (List ℝ)).get? i)
      (List.filter (fun i => decide (([0, 1] : List Nat).get? i = some 0))
        (List.range ([[(1:ℝ)], [1]] : List (List ℝ)).length))
      = [[(1:ℝ)]] from rfl]
  rw [if_neg (by decide : ¬ ([okLong] : List Str).isEmpty = true)]
  rw [vmean_single]
  rw [show List.map (fun emb => cosSim [(1:ℝ)] emb) ([[(1:ℝ)]] : List (List ℝ))
      = [(1:ℝ)] from by
    rw [List.map_cons, List.map_nil, cosSim_self_pos 1 one_pos]]
  rw [idxOfMax_single, listMean_single]
  rw [show ([okLong] : List Str).getD 0 [] = okLong from rfl]
  rw [show themeTitle okLong = chars "Ok..." from by decide]
  rfl
